import Mathlib

/-!
Verification development for the go-ollama streaming client.

The embedding models, over `List Char`:
* `SplitAt` and the `bufio.Scanner` driver (`scanTokensE`) from scanner.go;
* `CodeBlockRegExp` matching and `ParseCodeBlock` from the client source
  (the regular expression, two-or-more backticks, then (\S+), then a lazy
  (.+?), then a newline and two-or-more backticks, is embedded as an
  explicit leftmost-first backtracking matcher with the same priorities:
  greedy opening-backtick run, greedy `\S+` tag, lazy `(.+?)` body,
  literal newline, greedy closing-backtick run of length at least two);
* the scan loop of `Query` (`stepToken` / `processTokens` / `Query`), with
  `json.Unmarshal` merge semantics modelled by `unmarshalInto` and the
  caller-supplied decoder `dec`, and with the run-time panic of
  dereferencing a nil `res.Response` made explicit as a result value.
-/

set_option maxHeartbeats 2000000
set_option maxRecDepth 4000

namespace GoOllama

/-- The backtick character, written by code point. -/
def tick : Char := '\x60'

/-- Go regexp character class `\s`, which is exactly `[\t\n\f\r ]`. -/
def goIsSpace (c : Char) : Bool :=
  c = '\t' || c = '\n' || c = '\x0c' || c = '\r' || c = ' '

/-- Length of the leading run of backtick characters. -/
def btCount : List Char → Nat
  | [] => 0
  | c :: rest => if c = tick then btCount rest + 1 else 0

/-- Length of the leading run of characters matched by `\S` (non-whitespace). -/
def nonWsCount : List Char → Nat
  | [] => 0
  | c :: rest => if goIsSpace c then 0 else nonWsCount rest + 1

/-- Matching the regex tail `\n` followed by a greedy run of two or more
backticks at the start of the list.  Returns the length of the closing run
and the remainder after it. -/
def closeAt : List Char → Option (Nat × List Char)
  | c :: rest =>
      if c = '\n' then
        let n := btCount rest
        if 2 ≤ n then some (n, rest.drop n) else none
      else none
  | [] => none

/-- Search, at increasing offsets starting from zero, for the first position
where `closeAt` succeeds.  Returns the skipped prefix (the tail of the lazy
body), the closing-run length, and the remainder after the close. -/
def findCloseAux : List Char → Option (List Char × Nat × List Char)
  | [] => none
  | c :: rest =>
      match closeAt (c :: rest) with
      | some (n, r) => some ([], n, r)
      | none =>
          match findCloseAux rest with
          | some (b, n, r) => some (c :: b, n, r)
          | none => none

/-- The lazy group `(.+?)` followed by `\n` and the closing backtick run:
body lengths are tried in increasing order starting from one character. -/
def lazyBody : List Char → Option (List Char × Nat × List Char)
  | [] => none
  | c :: rest =>
      match findCloseAux rest with
      | some (b, n, r) => some (c :: b, n, r)
      | none => none

/-- The greedy group `(\S+)`: tag lengths are tried in decreasing order from
the first argument down to one. -/
def tagLoop (rest1 : List Char) : Nat → Option (List Char × List Char × Nat × List Char)
  | 0 => none
  | t + 1 =>
      match lazyBody (rest1.drop (t + 1)) with
      | some (b, n, r) => some (rest1.take (t + 1), b, n, r)
      | none => tagLoop rest1 t

/-- One match of `CodeBlockRegExp` anchored at the current position: the
opening-run length consumed by the leading backtick pattern, the two capture
groups, the closing-run length, and the remainder of the input after the
whole match. -/
structure FenceMatch where
  openTicks : Nat
  tag : List Char
  body : List Char
  closeTicks : Nat
  rest : List Char
  deriving DecidableEq

/-- The leading backtick pattern of `CodeBlockRegExp` (a literal backtick then
a greedy `+`): opening-run lengths are tried in decreasing order from the
first argument down to two. -/
def openLoop (s : List Char) : Nat → Option FenceMatch
  | 0 => none
  | 1 => none
  | j + 2 =>
      match tagLoop (s.drop (j + 2)) (nonWsCount (s.drop (j + 2))) with
      | some (tag, b, n, r) => some ⟨j + 2, tag, b, n, r⟩
      | none => openLoop s (j + 1)

/-- Attempt `CodeBlockRegExp` at the start of `s` with Go's leftmost-first
backtracking priorities. -/
def matchFence (s : List Char) : Option FenceMatch :=
  openLoop s (btCount s)

/-- A code block extracted from the response.  The Go struct fields `Type`
and `Code` are written lower-case because `Type` is reserved in Lean. -/
structure CodeBlock where
  type : List Char
  code : List Char
  deriving DecidableEq

theorem closeAt_rest_lt {l : List Char} {n : Nat} {r : List Char}
    (h : closeAt l = some (n, r)) : r.length < l.length := by
  match l with
  | [] => simp [closeAt] at h
  | c :: rest =>
    simp only [closeAt] at h
    split at h
    · split at h
      · simp only [Option.some.injEq, Prod.mk.injEq] at h
        obtain ⟨_, rfl⟩ := h
        simp only [List.length_drop, List.length_cons]
        omega
      · exact absurd h (by simp)
    · exact absurd h (by simp)

theorem findCloseAux_rest_lt {l : List Char} {b : List Char} {n : Nat} {r : List Char}
    (h : findCloseAux l = some (b, n, r)) : r.length < l.length := by
  induction l generalizing b with
  | nil => simp [findCloseAux] at h
  | cons c rest ih =>
    simp only [findCloseAux] at h
    split at h
    · next heq =>
      simp only [Option.some.injEq, Prod.mk.injEq] at h
      obtain ⟨rfl, rfl, rfl⟩ := h
      exact closeAt_rest_lt heq
    · split at h
      · next heq =>
        simp only [Option.some.injEq, Prod.mk.injEq] at h
        obtain ⟨rfl, rfl, rfl⟩ := h
        have := ih heq
        simp only [List.length_cons]
        omega
      · exact absurd h (by simp)

theorem lazyBody_rest_lt {l : List Char} {b : List Char} {n : Nat} {r : List Char}
    (h : lazyBody l = some (b, n, r)) : r.length < l.length := by
  match l with
  | [] => simp [lazyBody] at h
  | c :: rest =>
    simp only [lazyBody] at h
    split at h
    · next heq =>
      simp only [Option.some.injEq, Prod.mk.injEq] at h
      obtain ⟨rfl, rfl, rfl⟩ := h
      have := findCloseAux_rest_lt heq
      simp only [List.length_cons]
      omega
    · exact absurd h (by simp)

theorem tagLoop_rest_lt {rest1 : List Char} {t : Nat} {tag b : List Char} {n : Nat}
    {r : List Char} (h : tagLoop rest1 t = some (tag, b, n, r)) :
    r.length < rest1.length := by
  induction t with
  | zero => simp [tagLoop] at h
  | succ t ih =>
    simp only [tagLoop] at h
    split at h
    · next heq =>
      simp only [Option.some.injEq, Prod.mk.injEq] at h
      obtain ⟨rfl, rfl, rfl, rfl⟩ := h
      have h1 := lazyBody_rest_lt heq
      have h2 : (rest1.drop (t + 1)).length ≤ rest1.length := by
        simp only [List.length_drop]; omega
      omega
    · exact ih h

theorem openLoop_rest_lt {s : List Char} {j : Nat} {m : FenceMatch}
    (h : openLoop s j = some m) : m.rest.length < s.length := by
  induction j with
  | zero => simp [openLoop] at h
  | succ j ih =>
    match j with
    | 0 => simp [openLoop] at h
    | j + 1 =>
      simp only [openLoop] at h
      split at h
      · next heq =>
        simp only [Option.some.injEq] at h
        subst h
        have h1 := tagLoop_rest_lt heq
        have h2 : (s.drop (j + 2)).length ≤ s.length := by
          simp only [List.length_drop]; omega
        simp only
        omega
      · exact ih h

theorem matchFence_rest_lt {s : List Char} {m : FenceMatch}
    (h : matchFence s = some m) : m.rest.length < s.length :=
  openLoop_rest_lt h

/-- The iteration of `FindAllStringSubmatch`: repeatedly find the leftmost
match, record the two capture groups, and continue right after the match.
The fuel argument bounds the number of steps; since every step consumes at
least one character, the length of the input is always enough fuel
(`findAllCodeAux_fuel` below makes this exact). -/
def findAllCodeAux : Nat → List Char → List CodeBlock
  | 0, _ => []
  | _ + 1, [] => []
  | fuel + 1, c :: rest =>
      match matchFence (c :: rest) with
      | some m => ⟨m.tag, m.body⟩ :: findAllCodeAux fuel m.rest
      | none => findAllCodeAux fuel rest

/-- ParseCodeBlock: runs `CodeBlockRegExp.FindAllStringSubmatch(text, -1)` and
keeps submatch 1 as the block type and submatch 2 as the block code. -/
def ParseCodeBlock (text : List Char) : List CodeBlock :=
  findAllCodeAux text.length text

/-- Any fuel at least the length of the input gives the same result, so the
fuel in `ParseCodeBlock` is only a termination device, not a semantic bound. -/
theorem findAllCodeAux_fuel {fuel : Nat} {s : List Char} (h : s.length ≤ fuel) :
    findAllCodeAux fuel s = ParseCodeBlock s := by
  induction fuel using Nat.strong_induction_on generalizing s with
  | _ fuel ih =>
    match fuel, s with
    | 0, s =>
      have hs : s = [] := by
        cases s with
        | nil => rfl
        | cons c r => simp at h
      subst hs
      simp [findAllCodeAux, ParseCodeBlock]
    | fuel + 1, [] => simp [findAllCodeAux, ParseCodeBlock]
    | fuel + 1, c :: rest =>
      simp only [List.length_cons] at h
      rw [ParseCodeBlock]
      simp only [List.length_cons, findAllCodeAux]
      cases hm : matchFence (c :: rest) with
      | some m =>
        have hlt := matchFence_rest_lt hm
        simp only [List.length_cons] at hlt
        have e1 : findAllCodeAux fuel m.rest = ParseCodeBlock m.rest :=
          ih fuel (by omega) (by omega)
        have e2 : findAllCodeAux rest.length m.rest = ParseCodeBlock m.rest :=
          ih rest.length (by omega) (by omega)
        simp [e1, e2]
      | none =>
        have e1 : findAllCodeAux fuel rest = ParseCodeBlock rest :=
          ih fuel (by omega) (by omega)
        have e2 : findAllCodeAux rest.length rest = ParseCodeBlock rest :=
          ih rest.length (by omega) (by simp)
        simp [e1, e2]

/-- bytes.Index: the index of the first occurrence of `sep` in the list, or
`none` when there is no occurrence. -/
def bytesIndex (sep : List Char) : List Char → Option Nat
  | [] => if sep.isPrefixOf ([] : List Char) then some 0 else none
  | c :: rest =>
      if sep.isPrefixOf (c :: rest) then some 0
      else (bytesIndex sep rest).map (· + 1)

/-- The split function built by `SplitAt(substring)` in scanner.go, for a
non-empty separator given as its first character and the rest.  Returns the
pair `(advance, token)`; `none` stands for the Go `nil` token. -/
def SplitAt (s0 : Char) (srest : List Char) (data : List Char) (atEOF : Bool) :
    Nat × Option (List Char) :=
  let searchBytes := s0 :: srest
  let searchLength := srest.length + 1
  let dataLen := data.length
  if atEOF ∧ dataLen = 0 then (0, none)
  else
    match bytesIndex searchBytes data with
    | some i => (i + searchLength, some (data.take i))
    | none => if atEOF then (dataLen, some data) else (0, none)

theorem bytesIndex_le {sep l : List Char} {i : Nat}
    (h : bytesIndex sep l = some i) : i + sep.length ≤ l.length := by
  induction l generalizing i with
  | nil =>
    simp only [bytesIndex] at h
    split at h
    · next hp =>
      simp only [Option.some.injEq] at h
      subst h
      have := List.isPrefixOf_iff_prefix.mp hp
      simpa using this.length_le
    · exact absurd h (by simp)
  | cons c rest ih =>
    simp only [bytesIndex] at h
    split at h
    · next hp =>
      simp only [Option.some.injEq] at h
      subst h
      have := List.isPrefixOf_iff_prefix.mp hp
      simpa using this.length_le
    · simp only [Option.map_eq_some'] at h
      obtain ⟨i', hi', rfl⟩ := h
      have := ih hi'
      simp only [List.length_cons]
      omega

theorem bytesIndex_append {sep l : List Char} {i : Nat} (l' : List Char)
    (h : bytesIndex sep l = some i) : bytesIndex sep (l ++ l') = some i := by
  induction l generalizing i with
  | nil =>
    simp only [bytesIndex] at h
    split at h
    · next hp =>
      simp only [Option.some.injEq] at h
      subst h
      have : sep = [] := by simpa using List.isPrefixOf_iff_prefix.mp hp
      subst this
      cases l' with
      | nil => simp [bytesIndex]
      | cons c cs => simp [bytesIndex, List.isPrefixOf]
    · exact absurd h (by simp)
  | cons c rest ih =>
    simp only [bytesIndex] at h
    simp only [List.cons_append, bytesIndex]
    split at h
    · next hp =>
      simp only [Option.some.injEq] at h
      subst h
      have hpre : sep <+: c :: rest := List.isPrefixOf_iff_prefix.mp hp
      have hext : sep.isPrefixOf (c :: (rest ++ l')) = true := by
        rw [List.isPrefixOf_iff_prefix]
        refine hpre.trans ?_
        rw [← List.cons_append]
        exact List.prefix_append _ _
      simp [hext]
    · next hp =>
      simp only [Option.map_eq_some'] at h
      obtain ⟨i', hi', rfl⟩ := h
      have hnp : ¬ sep.isPrefixOf (c :: (rest ++ l')) = true := by
        intro hc
        have hpp : sep <+: c :: (rest ++ l') := List.isPrefixOf_iff_prefix.mp hc
        have hle := bytesIndex_le hi'
        have hbig : c :: rest <+: c :: (rest ++ l') := by
          rw [← List.cons_append]
          exact List.prefix_append _ _
        have hsp : sep <+: c :: rest :=
          List.prefix_of_prefix_length_le hpp hbig
            (by simp only [List.length_cons]; omega)
        rw [← List.isPrefixOf_iff_prefix] at hsp
        exact hp hsp
      simp only [List.append_eq]
      rw [if_neg hnp, ih hi', Option.map_some']

theorem SplitAt_some_bounds {s0 : Char} {srest data : List Char} {atEOF : Bool}
    {adv : Nat} {tok : List Char}
    (h : SplitAt s0 srest data atEOF = (adv, some tok)) :
    1 ≤ adv ∧ adv ≤ data.length := by
  simp only [SplitAt] at h
  split at h
  · exact absurd h (by simp)
  · next hne =>
    split at h
    · next i hi =>
      simp only [Prod.mk.injEq, Option.some.injEq] at h
      obtain ⟨rfl, rfl⟩ := h
      have := bytesIndex_le hi
      simp only [List.length_cons] at this
      omega
    · split at h
      · next heof =>
        simp only [Prod.mk.injEq, Option.some.injEq] at h
        obtain ⟨rfl, rfl⟩ := h
        have hdl : data.length ≠ 0 := fun h0 => hne ⟨by simpa using heof, h0⟩
        omega
      · exact absurd h (by simp)

/-- The `bufio.Scanner` loop driving the split function, as used by `Query`
through `NewSplitScanner`.  `buf` is the buffered not-yet-consumed data,
`chunks` the successful reads the underlying stream will still deliver, and
`eofSeen` records whether a read has already returned `io.EOF` or an I/O
error (the scanner then calls the split function with `atEOF = true`).  Each
produced token is paired with the value of `eofSeen` at the moment the token
was returned: exactly then `scanner.Err()` is already non-nil when the stream
ended in an I/O error rather than a clean EOF. -/
def scanTokensE (s0 : Char) (srest : List Char) :
    List Char → List (List Char) → Bool → List (List Char × Bool)
  | buf, chunks, eofSeen =>
    match h : SplitAt s0 srest buf eofSeen with
    | (adv, some tok) => (tok, eofSeen) :: scanTokensE s0 srest (buf.drop adv) chunks eofSeen
    | (_, none) =>
        if eofSeen then []
        else
          match chunks with
          | c :: cs => scanTokensE s0 srest (buf ++ c) cs eofSeen
          | [] => scanTokensE s0 srest buf [] true
termination_by buf chunks eofSeen =>
  2 * (chunks.length + (chunks.map List.length).sum) + buf.length +
    (if eofSeen then 0 else 1)
decreasing_by
  · have hb := SplitAt_some_bounds h
    simp only [List.length_drop]
    omega
  · simp only [List.map_cons, List.length_cons, List.sum_cons, List.length_append]
    omega
  · cases eofSeen with
    | true => simp_all
    | false => simp

theorem take_btCount {l : List Char} {j : Nat} (h : j ≤ btCount l) :
    l.take j = List.replicate j tick := by
  induction l generalizing j with
  | nil =>
    simp only [btCount, Nat.le_zero] at h
    subst h
    simp
  | cons c rest ih =>
    simp only [btCount] at h
    split at h
    · next hc =>
      subst hc
      cases j with
      | zero => simp
      | succ j' =>
        simp only [List.take_succ_cons, List.replicate_succ]
        rw [ih (by omega)]
    · have : j = 0 := by omega
      subst this
      simp

theorem take_nonWsCount {l : List Char} {m : Nat} (h : m ≤ nonWsCount l) :
    (l.take m).all (fun c => !goIsSpace c) = true := by
  induction l generalizing m with
  | nil =>
    simp only [nonWsCount, Nat.le_zero] at h
    subst h
    simp
  | cons c rest ih =>
    simp only [nonWsCount] at h
    split at h
    · have : m = 0 := by omega
      subst this
      simp
    · next hc =>
      cases m with
      | zero => simp
      | succ m' =>
        simp only [List.take_succ_cons, List.all_cons, Bool.and_eq_true]
        exact ⟨by simp [hc], ih (by omega)⟩

theorem closeAt_decomp {l : List Char} {n : Nat} {r : List Char}
    (h : closeAt l = some (n, r)) :
    l = '\n' :: (List.replicate n tick ++ r) ∧ 2 ≤ n := by
  match l with
  | [] => simp [closeAt] at h
  | c :: rest =>
    simp only [closeAt] at h
    split at h
    · next hc =>
      split at h
      · next hn =>
        simp only [Option.some.injEq, Prod.mk.injEq] at h
        obtain ⟨rfl, rfl⟩ := h
        subst hc
        refine ⟨?_, hn⟩
        have := take_btCount (l := rest) (le_refl (btCount rest))
        conv_lhs => rw [← List.take_append_drop (btCount rest) rest]
        rw [this]
      · exact absurd h (by simp)
    · exact absurd h (by simp)

theorem findCloseAux_decomp {l b : List Char} {n : Nat} {r : List Char}
    (h : findCloseAux l = some (b, n, r)) :
    l = b ++ '\n' :: (List.replicate n tick ++ r) ∧ 2 ≤ n := by
  induction l generalizing b with
  | nil => simp [findCloseAux] at h
  | cons c rest ih =>
    simp only [findCloseAux] at h
    split at h
    · next heq =>
      simp only [Option.some.injEq, Prod.mk.injEq] at h
      obtain ⟨rfl, rfl, rfl⟩ := h
      have := closeAt_decomp heq
      simpa using this
    · split at h
      · next heq =>
        simp only [Option.some.injEq, Prod.mk.injEq] at h
        obtain ⟨rfl, rfl, rfl⟩ := h
        obtain ⟨hdec, hn⟩ := ih heq
        exact ⟨by rw [List.cons_append, ← hdec], hn⟩
      · exact absurd h (by simp)

theorem lazyBody_decomp {l b : List Char} {n : Nat} {r : List Char}
    (h : lazyBody l = some (b, n, r)) :
    l = b ++ '\n' :: (List.replicate n tick ++ r) ∧ 2 ≤ n ∧ b ≠ [] := by
  match l with
  | [] => simp [lazyBody] at h
  | c :: rest =>
    simp only [lazyBody] at h
    split at h
    · next heq =>
      simp only [Option.some.injEq, Prod.mk.injEq] at h
      obtain ⟨rfl, rfl, rfl⟩ := h
      obtain ⟨hdec, hn⟩ := findCloseAux_decomp heq
      exact ⟨by rw [List.cons_append, ← hdec], hn, by simp⟩
    · exact absurd h (by simp)

theorem tagLoop_decomp {rest1 : List Char} {t : Nat} {tag b : List Char} {n : Nat}
    {r : List Char} (ht : t ≤ nonWsCount rest1)
    (h : tagLoop rest1 t = some (tag, b, n, r)) :
    rest1 = tag ++ b ++ '\n' :: (List.replicate n tick ++ r) ∧ 2 ≤ n ∧
      b ≠ [] ∧ tag ≠ [] ∧ tag.all (fun c => !goIsSpace c) = true := by
  induction t with
  | zero => simp [tagLoop] at h
  | succ t ih =>
    simp only [tagLoop] at h
    split at h
    · next heq =>
      simp only [Option.some.injEq, Prod.mk.injEq] at h
      obtain ⟨rfl, rfl, rfl, rfl⟩ := h
      obtain ⟨hdec, hn, hb⟩ := lazyBody_decomp heq
      have hne : rest1.drop (t + 1) ≠ [] := by
        intro h0
        rw [h0] at hdec
        exact hb (by simpa using hdec.symm)
      have hlen : t + 1 < rest1.length := by
        by_contra hc
        push_neg at hc
        exact hne (List.drop_eq_nil_of_le hc)
      refine ⟨?_, hn, hb, ?_, take_nonWsCount ht⟩
      · conv_lhs => rw [← List.take_append_drop (t + 1) rest1]
        rw [hdec, List.append_assoc]
      · have : (rest1.take (t + 1)).length = t + 1 := by
          rw [List.length_take]
          omega
        intro h0
        rw [h0] at this
        simp at this
    · exact ih (by omega) h

theorem openLoop_decomp {s : List Char} {j : Nat} {m : FenceMatch}
    (hj : j ≤ btCount s) (h : openLoop s j = some m) :
    s = List.replicate m.openTicks tick ++ m.tag ++ m.body ++
        '\n' :: (List.replicate m.closeTicks tick ++ m.rest) ∧
      2 ≤ m.openTicks ∧ 2 ≤ m.closeTicks ∧ m.tag ≠ [] ∧ m.body ≠ [] ∧
      m.tag.all (fun c => !goIsSpace c) = true := by
  induction j with
  | zero => simp [openLoop] at h
  | succ j ih =>
    match j with
    | 0 => simp [openLoop] at h
    | j + 1 =>
      simp only [openLoop] at h
      split at h
      · next heq =>
        simp only [Option.some.injEq] at h
        subst h
        obtain ⟨hdec, hn, hb, htag, hall⟩ :=
          tagLoop_decomp (le_refl (nonWsCount (s.drop (j + 2)))) heq
        refine ⟨?_, by simp, hn, htag, hb, hall⟩
        simp only
        conv_lhs => rw [← List.take_append_drop (j + 2) s]
        rw [take_btCount hj, hdec]
        simp [List.append_assoc]
      · exact ih (by omega) h

/-- Every match of `CodeBlockRegExp` decomposes the input as an opening run
of `openTicks` backticks (at least two), the non-empty all-non-whitespace
tag, the non-empty body, a newline, a closing run of `closeTicks` backticks
(at least two), and the remainder.  In particular the captured code is
bytes-exact between the end of the tag and the newline that precedes the
closing run. -/
theorem matchFence_decomp {s : List Char} {m : FenceMatch}
    (h : matchFence s = some m) :
    s = List.replicate m.openTicks tick ++ m.tag ++ m.body ++
        '\n' :: (List.replicate m.closeTicks tick ++ m.rest) ∧
      2 ≤ m.openTicks ∧ 2 ≤ m.closeTicks ∧ m.tag ≠ [] ∧ m.body ≠ [] ∧
      m.tag.all (fun c => !goIsSpace c) = true :=
  openLoop_decomp (le_refl (btCount s)) h

/-- Every block produced by the `FindAllStringSubmatch` iteration is the
capture pair of some successful match of the regular expression. -/
theorem findAllCodeAux_sound {fuel : Nat} {s : List Char} {bl : CodeBlock}
    (h : bl ∈ findAllCodeAux fuel s) :
    ∃ s' m, matchFence s' = some m ∧ bl = ⟨m.tag, m.body⟩ := by
  induction fuel generalizing s with
  | zero => simp [findAllCodeAux] at h
  | succ fuel ih =>
    match s with
    | [] => simp [findAllCodeAux] at h
    | c :: rest =>
      simp only [findAllCodeAux] at h
      split at h
      · next m hm =>
        rcases List.mem_cons.mp h with h1 | h2
        · exact ⟨c :: rest, m, hm, h1⟩
        · exact ih h2
      · exact ih h

theorem scanTokensE_some {s0 : Char} {srest buf : List Char} {chunks : List (List Char)}
    {eofSeen : Bool} {adv : Nat} {tok : List Char}
    (h : SplitAt s0 srest buf eofSeen = (adv, some tok)) :
    scanTokensE s0 srest buf chunks eofSeen =
      (tok, eofSeen) :: scanTokensE s0 srest (buf.drop adv) chunks eofSeen := by
  cases chunks with
  | nil =>
    rw [scanTokensE.eq_2]
    split
    · next adv' tok' h' =>
      rw [h] at h'
      simp only [Prod.mk.injEq, Option.some.injEq] at h'
      obtain ⟨rfl, rfl⟩ := h'
      rfl
    · next h' =>
      rw [h] at h'
      simp at h'
  | cons c cs =>
    rw [scanTokensE.eq_1]
    split
    · next adv' tok' h' =>
      rw [h] at h'
      simp only [Prod.mk.injEq, Option.some.injEq] at h'
      obtain ⟨rfl, rfl⟩ := h'
      rfl
    · next h' =>
      rw [h] at h'
      simp at h'

theorem scanTokensE_none_eof {s0 : Char} {srest buf : List Char}
    {chunks : List (List Char)} {adv : Nat}
    (h : SplitAt s0 srest buf true = (adv, none)) :
    scanTokensE s0 srest buf chunks true = [] := by
  cases chunks with
  | nil =>
    rw [scanTokensE.eq_2]
    split
    · next adv' tok' h' =>
      rw [h] at h'
      simp at h'
    · simp
  | cons c cs =>
    rw [scanTokensE.eq_1]
    split
    · next adv' tok' h' =>
      rw [h] at h'
      simp at h'
    · simp

theorem scanTokensE_none_cons {s0 : Char} {srest buf c : List Char}
    {cs : List (List Char)} {adv : Nat}
    (h : SplitAt s0 srest buf false = (adv, none)) :
    scanTokensE s0 srest buf (c :: cs) false = scanTokensE s0 srest (buf ++ c) cs false := by
  rw [scanTokensE.eq_1]
  split
  · next adv' tok' h' =>
    rw [h] at h'
    simp at h'
  · simp

theorem scanTokensE_none_nil {s0 : Char} {srest buf : List Char} {adv : Nat}
    (h : SplitAt s0 srest buf false = (adv, none)) :
    scanTokensE s0 srest buf [] false = scanTokensE s0 srest buf [] true := by
  rw [scanTokensE.eq_2]
  split
  · next adv' tok' h' =>
    rw [h] at h'
    simp at h'
  · simp

theorem SplitAt_false_some {s0 : Char} {srest data : List Char} {adv : Nat}
    {tok : List Char} (h : SplitAt s0 srest data false = (adv, some tok)) :
    ∃ i, bytesIndex (s0 :: srest) data = some i ∧
      adv = i + (srest.length + 1) ∧ tok = data.take i := by
  simp only [SplitAt, Bool.false_eq_true, false_and, if_false] at h
  split at h
  · next i hi =>
    simp only [Prod.mk.injEq, Option.some.injEq] at h
    obtain ⟨rfl, rfl⟩ := h
    exact ⟨i, hi, rfl, rfl⟩
  · simp at h

theorem SplitAt_of_bytesIndex {s0 : Char} {srest data : List Char} {i : Nat}
    (atEOF : Bool) (hi : bytesIndex (s0 :: srest) data = some i) (hne : data ≠ []) :
    SplitAt s0 srest data atEOF = (i + (srest.length + 1), some (data.take i)) := by
  have hlen : data.length ≠ 0 := by
    intro h0
    exact hne (List.length_eq_zero.mp h0)
  simp only [SplitAt]
  rw [if_neg (by intro hc; exact hlen hc.2), hi]

/-- The token sequence of the scanner depends only on the concatenation of
the reads: a buffered prefix followed by any chunking of the remaining bytes
produces the same tokens as the whole remainder in one chunk.  The guard says
that once end-of-stream was observed no further chunks exist, which holds on
every reachable scanner state. -/
theorem scanTokensE_flatten (s0 : Char) (srest : List Char)
    (buf : List Char) (chunks : List (List Char)) (eofSeen : Bool) :
    (eofSeen = true → chunks = []) →
    (scanTokensE s0 srest buf chunks eofSeen).map Prod.fst =
      (scanTokensE s0 srest (buf ++ chunks.flatten) [] eofSeen).map Prod.fst := by
  induction buf, chunks, eofSeen using scanTokensE.induct s0 srest with
  | case1 buf chunks eofSeen adv tok h ih =>
    intro hguard
    cases chunks with
    | nil => simp
    | cons c cs =>
      have heof : eofSeen = false := by
        cases eofSeen with
        | true => exact absurd (hguard rfl) (by simp)
        | false => rfl
      subst heof
      obtain ⟨i, hidx, rfl, rfl⟩ := SplitAt_false_some h
      have hle := bytesIndex_le hidx
      simp only [List.length_cons] at hle
      have hbne : buf ≠ [] := by
        intro h0
        subst h0
        simp at hle
      have hidx2 := bytesIndex_append ((c :: cs).flatten) hidx
      have hsplit2 :
          SplitAt s0 srest (buf ++ (c :: cs).flatten) false =
            (i + (srest.length + 1), some ((buf ++ (c :: cs).flatten).take i)) :=
        SplitAt_of_bytesIndex false hidx2 (by simp [hbne])
      rw [scanTokensE_some h, scanTokensE_some hsplit2]
      simp only [List.map_cons]
      have htake : (buf ++ (c :: cs).flatten).take i = buf.take i :=
        List.take_append_of_le_length (by omega)
      have hdrop :
          (buf ++ (c :: cs).flatten).drop (i + (srest.length + 1)) =
            buf.drop (i + (srest.length + 1)) ++ (c :: cs).flatten :=
        List.drop_append_of_le_length (by omega)
      rw [htake, hdrop]
      exact congrArg _ (ih (by intro hh; simp at hh))
  | case2 buf chunks adv h =>
    intro hguard
    have hc := hguard rfl
    subst hc
    simp
  | case3 buf eofSeen adv h hne c cs ih =>
    intro _
    have heof : eofSeen = false := by
      cases eofSeen with
      | true => exact absurd rfl hne
      | false => rfl
    subst heof
    rw [scanTokensE_none_cons h]
    have := ih (by intro hh; simp at hh)
    rw [this]
    simp [List.append_assoc]
  | case4 buf eofSeen adv h hne ih =>
    intro _
    have heof : eofSeen = false := by
      cases eofSeen with
      | true => exact absurd rfl hne
      | false => rfl
    subst heof
    simp only [List.flatten_nil, List.append_nil]

/-- The Response struct: every field is a pointer in Go, so every field is
optional here.  `createdAt` stands for the `*time.Time` field. -/
structure Response where
  model : Option (List Char) := none
  createdAt : Option (List Char) := none
  response : Option (List Char) := none
  done : Option Bool := none
  deriving DecidableEq

/-- `json.Unmarshal(data, &res)` semantics for a struct of pointer fields
when `res` already holds the previous line's values: a key present in the
line overwrites the field, an absent key leaves the previous value in place.
`line` holds exactly the keys present on the wire. -/
def unmarshalInto (prev line : Response) : Response where
  model := line.model.orElse fun _ => prev.model
  createdAt := line.createdAt.orElse fun _ => prev.createdAt
  response := line.response.orElse fun _ => prev.response
  done := line.done.orElse fun _ => prev.done

/-- Outcome of the `Query` scan loop.  Each error constructor corresponds to
one wrapped early `return` of the Go code (the wrapping `fmt.Errorf` message
is the constructor, the `%w` payload is carried verbatim), and
`panicNilResponse` makes the run-time panic of evaluating `*res.Response`
when `res.Response` is nil an explicit outcome. -/
inductive QueryResult (E : Type) where
  | ok
  | readErr
  | decodeErr
  | onJsonErr (e : E)
  | onCodeErr (e : E)
  | panicNilResponse
  deriving DecidableEq

/-- Whether a result is the successful one. -/
def QueryResult.isOk {E : Type} : QueryResult E → Bool
  | .ok => true
  | _ => false

/-- The mutable state of one `Query` scan loop, instrumented with the
sequence of `OnJson` arguments and the sequence of `OnCodeBlock` batches
actually dispatched, so that statements about which callbacks fired are
expressible. -/
structure LoopState where
  res : Response := {}
  text : List Char := []
  jsonCalls : List Response := []
  codeCalls : List (List CodeBlock) := []
  deriving DecidableEq

/-- One iteration of the `for scanner.Scan()` body of `Query` on a token and
the `scanner.Err()` visibility flag delivered with it.  `inl` is an early
`return` (or panic), `inr` the state carried to the next iteration.
The order mirrors the source: the `scanner.Err()` check, then
`json.Unmarshal` (modelled by `dec` plus `unmarshalInto`), then the
`OnJson` dispatch, then the code-block analysis. -/
def stepToken {E : Type} (dec : List Char → Option Response)
    (onJson : Option (Response → Option E))
    (onCodeBlock : Option (List CodeBlock → Option E))
    (readFails : Bool) (st : LoopState) (tok : List Char × Bool) :
    (QueryResult E × LoopState) ⊕ LoopState :=
  if tok.2 && readFails then .inl (.readErr, st)
  else
    match dec tok.1 with
    | none => .inl (.decodeErr, st)
    | some line =>
      let r := unmarshalInto st.res line
      let st1 : LoopState :=
        match onJson with
        | some _ => { st with res := r, jsonCalls := st.jsonCalls ++ [r] }
        | none => { st with res := r }
      match onJson with
      | some handler =>
        match handler r with
        | some e => .inl (.onJsonErr e, st1)
        | none => analyse onCodeBlock st1
      | none => analyse onCodeBlock st1
where
  /-- The `shouldAnalyse` part of the loop body (joining the fragment into
  `text`, running `ParseCodeBlock`, clearing `text` and dispatching the batch
  when it is non-empty). -/
  analyse (onCodeBlock : Option (List CodeBlock → Option E)) (st : LoopState) :
      (QueryResult E × LoopState) ⊕ LoopState :=
    match onCodeBlock with
    | none => .inr st
    | some handler =>
      match st.res.response with
      | none => .inl (.panicNilResponse, st)
      | some frag =>
        let text := st.text ++ frag
        let blocks := ParseCodeBlock text
        if blocks.isEmpty then .inr { st with text := text }
        else
          let st2 : LoopState :=
            { st with text := [], codeCalls := st.codeCalls ++ [blocks] }
          match handler blocks with
          | some e => .inl (.onCodeErr e, st2)
          | none => .inr st2

/-- The `for scanner.Scan()` loop of `Query` over the delivered tokens.
Reaching the end of the token list is the naked `return` after the loop:
the Go function returns its `err` variable, which is nil on every path that
reaches the loop exit, so the result is `ok` there — in particular the loop
exit performs no `scanner.Err()` check. -/
def processTokens {E : Type} (dec : List Char → Option Response)
    (onJson : Option (Response → Option E))
    (onCodeBlock : Option (List CodeBlock → Option E))
    (readFails : Bool) :
    LoopState → List (List Char × Bool) → QueryResult E × LoopState
  | st, [] => (.ok, st)
  | st, tok :: rest =>
    match stepToken dec onJson onCodeBlock readFails st tok with
    | .inl out => out
    | .inr st' => processTokens dec onJson onCodeBlock readFails st' rest

/-- Model of Query from the point where the HTTP response body streams in: the
scanner is `NewSplitScanner(resp.Body, "\n")` and the loop processes its
tokens.  `dec` models `json.Unmarshal` on one line, `chunks` are the
successive successful reads of the body, and `readFails` tells whether the
stream then ends in an I/O error (`true`) or a clean EOF (`false`). -/
def Query {E : Type} (dec : List Char → Option Response)
    (onJson : Option (Response → Option E))
    (onCodeBlock : Option (List CodeBlock → Option E))
    (chunks : List (List Char)) (readFails : Bool) : QueryResult E × LoopState :=
  processTokens dec onJson onCodeBlock readFails {}
    (scanTokensE '\n' [] [] chunks false)

theorem stepToken_inl_not_ok {E : Type} {dec : List Char → Option Response}
    {onJson : Option (Response → Option E)}
    {onCodeBlock : Option (List CodeBlock → Option E)} {readFails : Bool}
    {st : LoopState} {tok : List Char × Bool} {out : QueryResult E × LoopState}
    (h : stepToken dec onJson onCodeBlock readFails st tok = .inl out) :
    out.1.isOk = false := by
  simp only [stepToken, stepToken.analyse] at h
  repeat' split at h
  all_goals
    first
      | (simp only [Sum.inl.injEq] at h; subst h; rfl)
      | simp at h

theorem processTokens_append {E : Type} (dec : List Char → Option Response)
    (onJson : Option (Response → Option E))
    (onCodeBlock : Option (List CodeBlock → Option E)) (readFails : Bool)
    (xs ys : List (List Char × Bool)) (st : LoopState) :
    processTokens dec onJson onCodeBlock readFails st (xs ++ ys) =
      (if (processTokens dec onJson onCodeBlock readFails st xs).1.isOk
       then processTokens dec onJson onCodeBlock readFails
              (processTokens dec onJson onCodeBlock readFails st xs).2 ys
       else processTokens dec onJson onCodeBlock readFails st xs) := by
  induction xs generalizing st with
  | nil => simp [processTokens, QueryResult.isOk]
  | cons x xs ih =>
    simp only [List.cons_append, processTokens]
    cases hs : stepToken dec onJson onCodeBlock readFails st x with
    | inl out =>
      have := stepToken_inl_not_ok hs
      simp [this]
    | inr st' => exact ih st'

/-- One benign loop iteration: the token was delivered before end-of-stream,
its line decodes with a present text fragment, and the always-succeeding
handlers are installed; the iteration continues with the state the source
computes for it. -/
theorem stepToken_benign {E : Type} (dec : List Char → Option Response)
    (st : LoopState) (p : List Char × Bool) (line : Response) (s : List Char)
    (hp2 : p.2 = false) (hline : dec p.1 = some line)
    (hs : line.response = some s) :
    stepToken dec (some fun _ => none) (some fun _ => (none : Option E)) false st p =
      .inr (if (ParseCodeBlock (st.text ++ s)).isEmpty
            then { st with res := unmarshalInto st.res line,
                           jsonCalls := st.jsonCalls ++ [unmarshalInto st.res line],
                           text := st.text ++ s }
            else { st with res := unmarshalInto st.res line,
                           jsonCalls := st.jsonCalls ++ [unmarshalInto st.res line],
                           text := [],
                           codeCalls := st.codeCalls ++ [ParseCodeBlock (st.text ++ s)] }) := by
  have hresp : (unmarshalInto st.res line).response = some s := by
    simp [unmarshalInto, hs, Option.orElse]
  simp only [stepToken, hp2, Bool.false_and, Bool.false_eq_true, if_false, hline,
    stepToken.analyse, hresp]
  split
  · next hempty => simp_all
  · next hempty => simp_all

/-- A run whose tokens are all delivered before end-of-stream, all decode,
and all carry a present text fragment, processed with handlers that always
succeed, reaches the end of the loop with result `ok`; and every batch ever
passed to the block handler is non-empty. -/
theorem processTokens_benign {E : Type} (dec : List Char → Option Response)
    (toks : List (List Char × Bool)) (st : LoopState)
    (hflag : ∀ p ∈ toks, p.2 = false)
    (hdec : ∀ p ∈ toks, ∃ line, dec p.1 = some line ∧ ∃ s, line.response = some s)
    (hinv : ∀ batch ∈ st.codeCalls, batch ≠ []) :
    (processTokens dec (some fun _ => none) (some fun _ => (none : Option E))
        false st toks).1 = .ok ∧
      ∀ batch ∈ (processTokens dec (some fun _ => none)
          (some fun _ => (none : Option E)) false st toks).2.codeCalls,
        batch ≠ [] := by
  induction toks generalizing st with
  | nil => exact ⟨rfl, hinv⟩
  | cons p rest ih =>
    obtain ⟨line, hline, s, hs⟩ := hdec p (by simp)
    have hp2 : p.2 = false := hflag p (by simp)
    rw [processTokens, stepToken_benign dec st p line s hp2 hline hs]
    by_cases hempty : (ParseCodeBlock (st.text ++ s)).isEmpty = true
    · rw [if_pos hempty]
      exact ih _ (fun q hq => hflag q (List.mem_cons_of_mem _ hq))
        (fun q hq => hdec q (List.mem_cons_of_mem _ hq)) hinv
    · rw [if_neg hempty]
      refine ih _ (fun q hq => hflag q (List.mem_cons_of_mem _ hq))
        (fun q hq => hdec q (List.mem_cons_of_mem _ hq)) ?_
      intro batch hb
      simp only [List.mem_append, List.mem_singleton] at hb
      rcases hb with hb | hb
      · exact hinv batch hb
      · subst hb
        intro h0
        exact hempty (by simp [h0])

/-- Claim C3, counterexample: a run of exactly two backticks does open and
close a code block — `ParseCodeBlock` extracts a block from an input whose
opening and closing markers are both exactly two backticks, so the claim
that fences need three-or-more backticks (and that exactly two never open
or close) is false of the code. -/
theorem C3_counterexample :
    ParseCodeBlock (String.toList "``go\nx\n``") ≠ [] := by decide

/-- Claim C3 (amended): `ParseCodeBlock` recognizes a fence only when the
opening marker is a run of two or more backticks and the closing marker is a
run of two or more backticks, and a run of exactly two suffices on both
ends.  The first conjunct bounds every match of the regular expression, the
second ties every extracted block to such a match, and the third shows the
two-backtick fence extracting. -/
theorem C3_two_or_more_backticks :
    (∀ s m, matchFence s = some m →
        2 ≤ m.openTicks ∧ 2 ≤ m.closeTicks ∧
          s.take m.openTicks = List.replicate m.openTicks tick) ∧
      (∀ fuel s bl, bl ∈ findAllCodeAux fuel s →
        ∃ s' m, matchFence s' = some m ∧ bl = ⟨m.tag, m.body⟩) ∧
      ParseCodeBlock (String.toList "``go\nx\n``") =
        [⟨String.toList "go", String.toList "\nx"⟩] := by
  refine ⟨?_, fun fuel s bl h => findAllCodeAux_sound h, by decide⟩
  intro s m h
  obtain ⟨hdec, h2, h3, _, _, _⟩ := matchFence_decomp h
  refine ⟨h2, h3, ?_⟩
  rw [hdec, List.take_append_of_le_length (by simp),
    List.take_append_of_le_length (by simp),
    List.take_append_of_le_length (by simp), List.take_replicate]
  simp

/-- Claim C3, witness: the amended theorem applied to the concrete fence
whose opening and closing runs are exactly two backticks. -/
theorem C3_witness :
    2 ≤ (2 : Nat) ∧ 2 ≤ (2 : Nat) ∧
      (String.toList "``go\nx\n``").take 2 = List.replicate 2 tick :=
  C3_two_or_more_backticks.1 (String.toList "``go\nx\n``")
    ⟨2, String.toList "go", String.toList "\nx", 2, []⟩ (by decide)

/-- Claim C4, counterexample: for the accumulated text from the claim, the
extracted code is `"\nfmt.Println(\"hi\")"` — the leading newline after the
language tag is included but the newline before the closing fence is not —
so it is not the claimed `"fmt.Println(\"hi\")\n"`. -/
theorem C4_counterexample :
    (ParseCodeBlock (String.toList "```go\nfmt.Println(\"hi\")\n```\n")).map
        CodeBlock.code ≠
      [String.toList "fmt.Println(\"hi\")\n"] := by decide

/-- Claim C4 (amended): the Code field is bytes-exact from the character
directly after the language tag up to the newline that precedes the closing
fence marker — the leading newline after the tag is included, the newline
before the closing backtick run is excluded; in particular the claimed
input extracts exactly one block with tag `go` and code
`"\nfmt.Println(\"hi\")"`. -/
theorem C4_code_bytes :
    (∀ s m, matchFence s = some m →
        s = List.replicate m.openTicks tick ++ m.tag ++ m.body ++
          '\n' :: (List.replicate m.closeTicks tick ++ m.rest)) ∧
      ParseCodeBlock (String.toList "```go\nfmt.Println(\"hi\")\n```\n") =
        [⟨String.toList "go", String.toList "\nfmt.Println(\"hi\")"⟩] :=
  ⟨fun _ _ h => (matchFence_decomp h).1, by decide⟩

/-- Claim C4, witness: the decomposition applied to a concrete match. -/
theorem C4_witness :
    String.toList "``a\nx\n``" =
      List.replicate 2 tick ++ ['a'] ++ ['\n', 'x'] ++
        '\n' :: (List.replicate 2 tick ++ []) :=
  C4_code_bytes.1 (String.toList "``a\nx\n``")
    ⟨2, ['a'], ['\n', 'x'], 2, []⟩ (by decide)

/-- Claim C7, counterexample: a closed fence whose opening marker is
directly followed by a newline does yield a block, but its language tag is a
single backtick (the last backtick of the opening run, captured by `\S+`),
not the empty string. -/
theorem C7_counterexample :
    (ParseCodeBlock (String.toList "```\ncode\n```")).map CodeBlock.type ≠
      [[]] := by decide

/-- Claim C7 (amended): a fence of three backticks directly followed by a
newline still extracts as one block, whose language tag is the single final
backtick of the opening run; more generally the language tag of any match is
never empty, because the tag pattern requires at least one non-whitespace
character. -/
theorem C7_no_language_tag :
    ParseCodeBlock (String.toList "```\ncode\n```") =
        [⟨[tick], String.toList "\ncode"⟩] ∧
      (∀ s m, matchFence s = some m → m.tag ≠ []) :=
  ⟨by decide, fun _ _ h => (matchFence_decomp h).2.2.2.1⟩

/-- Claim C7, witness: the non-empty-tag fact applied to the concrete
no-language fence. -/
theorem C7_witness : ([tick] : List Char) ≠ [] :=
  C7_no_language_tag.2 (String.toList "```\ncode\n```")
    ⟨2, [tick], String.toList "\ncode", 3, []⟩ (by decide)

/-- Claim C1: with one complete line delivered and the underlying stream
then failing with an I/O error at the next read, `Query` returns success.
After the last buffered token is consumed, the failing read makes
`scanner.Scan()` return `false` with no further token, the loop exits, and
the function returns its `err` variable, which is nil — there is no
`scanner.Err()` check after the loop, so the transport error is swallowed
instead of surfaced. -/
theorem C1_read_failure_swallowed :
    (Query (fun _ => some { done := some true })
        (some fun _ => (none : Option Nat)) none
        [String.toList "\x7b\"done\":true\x7d\n"] true).1 = QueryResult.ok := by
  have htok :
      scanTokensE '\n' [] [] [String.toList "\x7b\"done\":true\x7d\n"] false =
        [(String.toList "\x7b\"done\":true\x7d", false)] := by
    simp [scanTokensE, SplitAt, bytesIndex, List.isPrefixOf]
  unfold Query
  rw [htok]
  decide

/-- Claim C2: when the per-block handler is registered and the decoded event
carries no `response` field, `Query` evaluates `*res.Response` with
`res.Response == nil` and panics, instead of appending nothing and
continuing. -/
theorem C2_nil_response_panics :
    (Query (fun _ => some { done := some true }) none
        (some fun _ => (none : Option Nat))
        [String.toList "\x7b\"done\":true\x7d\n"] false).1 =
      QueryResult.panicNilResponse := by
  have htok :
      scanTokensE '\n' [] [] [String.toList "\x7b\"done\":true\x7d\n"] false =
        [(String.toList "\x7b\"done\":true\x7d", false)] := by
    simp [scanTokensE, SplitAt, bytesIndex, List.isPrefixOf]
  unfold Query
  rw [htok]
  decide

/-- Claim C6, counterexample: the first fragment holds a closed `a` fence
followed by an open `b` fence; the second fragment would close the `b`
fence.  Because extraction resets the whole buffer (`text = ""`), the open
fence's text is discarded: across the whole run, the only delivered batch is
the `a` block — no `b` block is ever produced. -/
theorem C6_counterexample :
    (processTokens
        (fun t => if t = ['1']
          then some { response := some (String.toList "```a\nx\n```\n```b\n") }
          else some { response := some (String.toList "y\n```\n") })
        none (some fun _ => (none : Option Nat)) false {}
        [(['1'], false), (['2'], false)]).2.codeCalls =
      [[⟨['a'], ['\n', 'x']⟩]] := by decide

/-- Claim C6 (amended): after a batch is extracted the buffer is reset to
empty, discarding the trailing open fence's text; a later fragment that
would have closed it does not yield that block — it just starts accumulating
afresh.  The full run of the two fragments is computed exactly. -/
theorem C6_buffer_reset_discards_open_fence :
    processTokens
        (fun t => if t = ['1']
          then some { response := some (String.toList "```a\nx\n```\n```b\n") }
          else some { response := some (String.toList "y\n```\n") })
        none (some fun _ => (none : Option Nat)) false {}
        [(['1'], false), (['2'], false)] =
      (.ok, { res := { response := some (String.toList "y\n```\n") },
              text := String.toList "y\n```\n",
              jsonCalls := [],
              codeCalls := [[⟨['a'], ['\n', 'x']⟩]] }) := by decide

/-- Claim C8: the token sequence produced by the scanner with the `SplitAt`
split function depends only on the concatenation of the delivered chunks,
for every non-empty separator (given as first character plus rest): any two
chunkings of the same bytes yield identical tokens, so a separator whose
bytes straddle a chunk boundary is still detected. -/
theorem C8_chunking_invariant (s0 : Char) (srest : List Char)
    (P1 P2 : List (List Char)) (h : P1.flatten = P2.flatten) :
    (scanTokensE s0 srest [] P1 false).map Prod.fst =
      (scanTokensE s0 srest [] P2 false).map Prod.fst := by
  rw [scanTokensE_flatten s0 srest [] P1 false (by simp),
    scanTokensE_flatten s0 srest [] P2 false (by simp), h]

/-- Claim C8, witness: the two-byte separator `"ab"` split across the chunk
boundary of `["xa", "by"]` produces the same tokens as the unchunked
`["xaby"]`, namely `["x", "y"]` — the straddling separator is detected. -/
theorem C8_witness :
    [String.toList "xa", String.toList "by"].flatten =
        [String.toList "xaby"].flatten ∧
      (scanTokensE 'a' ['b'] [] [String.toList "xa", String.toList "by"]
          false).map Prod.fst =
        (scanTokensE 'a' ['b'] [] [String.toList "xaby"] false).map Prod.fst ∧
      (scanTokensE 'a' ['b'] [] [String.toList "xaby"] false).map Prod.fst =
        [['x'], ['y']] :=
  ⟨by decide, C8_chunking_invariant 'a' ['b'] _ _ (by decide),
    by simp [scanTokensE, SplitAt, bytesIndex, List.isPrefixOf]⟩

/-- Claim C10: a stream whose accumulated text ends in an unclosed fence
raises no error and never delivers that fence.  Generally, any stream of
well-formed events (delivered before end-of-stream, decodable, fragment
present) with never-failing handlers ends with result `ok`, and every batch
the block handler ever receives is non-empty; concretely, a stream whose
whole text is the open fence "```go\nunfinished" ends in success with no
block-batch callback at all. -/
theorem C10_unclosed_fence_dropped {E : Type} (dec : List Char → Option Response)
    (toks : List (List Char × Bool))
    (hflag : ∀ p ∈ toks, p.2 = false)
    (hdec : ∀ p ∈ toks, ∃ line, dec p.1 = some line ∧ ∃ s, line.response = some s) :
    (processTokens dec (some fun _ => none) (some fun _ => (none : Option E))
        false {} toks).1 = .ok ∧
      (∀ batch ∈ (processTokens dec (some fun _ => none)
          (some fun _ => (none : Option E)) false {} toks).2.codeCalls,
        batch ≠ []) ∧
      (Query (fun _ => some { response := some (String.toList "```go\nunfinished") })
          (some fun _ => (none : Option Nat)) (some fun _ => none)
          [String.toList "\x7b\x7d\n"] false).1 = QueryResult.ok ∧
      (Query (fun _ => some { response := some (String.toList "```go\nunfinished") })
          (some fun _ => (none : Option Nat)) (some fun _ => none)
          [String.toList "\x7b\x7d\n"] false).2.codeCalls = [] := by
  obtain ⟨h1, h2⟩ := processTokens_benign dec toks {} hflag hdec (by simp)
  have htok : scanTokensE '\n' [] [] [String.toList "\x7b\x7d\n"] false =
      [(String.toList "\x7b\x7d", false)] := by
    simp [scanTokensE, SplitAt, bytesIndex, List.isPrefixOf]
  refine ⟨h1, h2, ?_, ?_⟩
  · unfold Query
    rw [htok]
    decide
  · unfold Query
    rw [htok]
    decide

/-- Claim C10, witness: the general part applied to a one-event stream. -/
theorem C10_witness :
    (processTokens (fun _ => some { response := some (['a'] : List Char) })
        (some fun _ => none) (some fun _ => (none : Option Nat)) false {}
        [(['t'], false)]).1 = QueryResult.ok :=
  (C10_unclosed_fence_dropped (fun _ => some { response := some ['a'] })
    [(['t'], false)] (by simp) (fun p _ => ⟨_, rfl, ['a'], rfl⟩)).1

/-- Claim C5: if the first k-1 events process cleanly and the per-event
handler fails on the k-th decoded event, the stream stops there: the result
is the `OnJson` failure wrapping exactly the handler's error value, the
handler was called exactly once more (with the failing event), no block
batch is dispatched for the failing event, and the remaining tokens — no
matter what they are — are never scanned and trigger no callback. -/
theorem C5_onJson_failure_stops {E : Type} (dec : List Char → Option Response)
    (h : Response → Option E) (oc : Option (List CodeBlock → Option E))
    (rf : Bool) (toks rest : List (List Char × Bool)) (td : List Char)
    (line : Response) (e : E)
    (hok : (processTokens dec (some h) oc rf {} toks).1 = .ok)
    (hdec : dec td = some line)
    (hfail : h (unmarshalInto
        (processTokens dec (some h) oc rf {} toks).2.res line) = some e) :
    processTokens dec (some h) oc rf {} (toks ++ (td, false) :: rest) =
      (.onJsonErr e,
        { (processTokens dec (some h) oc rf {} toks).2 with
          res := unmarshalInto
            (processTokens dec (some h) oc rf {} toks).2.res line,
          jsonCalls := (processTokens dec (some h) oc rf {} toks).2.jsonCalls ++
            [unmarshalInto
              (processTokens dec (some h) oc rf {} toks).2.res line] }) := by
  rw [processTokens_append dec (some h) oc rf toks ((td, false) :: rest) {}]
  rw [if_pos (by rw [hok]; rfl)]
  rw [processTokens]
  simp only [stepToken, Bool.false_and, Bool.false_eq_true, if_false, hdec, hfail]

/-- Claim C5, witness: the five-event scenario of the spec — the handler
fails on the second event, events three to five are never processed, no
block batch fires, and the result carries the handler's error value. -/
theorem C5_witness :
    processTokens (fun t => some { response := some t })
        (some fun r => if r.response = some ['B'] then some (0 : Nat) else none)
        none false {}
        ([(['A'], false)] ++
          (['B'], false) :: [(['C'], false), (['D'], false), (['E'], false)]) =
      (.onJsonErr 0,
        { res := { response := some ['B'] },
          text := [],
          jsonCalls := [{ response := some ['A'] }, { response := some ['B'] }],
          codeCalls := [] }) :=
  (C5_onJson_failure_stops (fun t => some { response := some t })
    (fun r => if r.response = some ['B'] then some (0 : Nat) else none)
    none false [(['A'], false)]
    [(['C'], false), (['D'], false), (['E'], false)] ['B']
    { response := some ['B'] } 0 (by decide) rfl (by decide)).trans (by decide)

/-- Claim C9: one loop iteration with the block handler registered — the
fragment is appended and the whole buffer rescanned; if the scan finds
blocks, all of them are delivered as one batch and the buffer is reset to
empty; if it finds none, no batch is delivered and the buffer has grown
exactly by the fragment. -/
theorem C9_extractor_policy {E : Type} (dec : List Char → Option Response)
    (oj : Option (Response → Option E)) (hc : List CodeBlock → Option E)
    (rf : Bool) (st : LoopState) (td : List Char) (line : Response)
    (frag : List Char)
    (hdec : dec td = some line)
    (hjson : ∀ g, oj = some g → g (unmarshalInto st.res line) = none)
    (hresp : (unmarshalInto st.res line).response = some frag)
    (hhc : hc (ParseCodeBlock (st.text ++ frag)) = none) :
    processTokens dec oj (some hc) rf st [(td, false)] =
      (.ok,
        { res := unmarshalInto st.res line,
          text := if (ParseCodeBlock (st.text ++ frag)).isEmpty
                  then st.text ++ frag else [],
          jsonCalls := st.jsonCalls ++
            (if oj.isSome then [unmarshalInto st.res line] else []),
          codeCalls := st.codeCalls ++
            (if (ParseCodeBlock (st.text ++ frag)).isEmpty then []
             else [ParseCodeBlock (st.text ++ frag)]) }) := by
  cases oj with
  | none =>
    simp only [processTokens, stepToken, Bool.false_and, Bool.false_eq_true,
      if_false, hdec, stepToken.analyse, hresp, Option.isSome_none,
      List.append_nil, hhc]
    by_cases hempty : ParseCodeBlock (st.text ++ frag) = []
    · simp [processTokens, hempty]
    · simp [processTokens, hempty]
  | some g =>
    have hg := hjson g rfl
    simp only [processTokens, stepToken, Bool.false_and, Bool.false_eq_true,
      if_false, hdec, hg, stepToken.analyse, hresp, Option.isSome_some, hhc]
    by_cases hempty : ParseCodeBlock (st.text ++ frag) = []
    · simp [processTokens, hempty]
    · simp [processTokens, hempty]

/-- Claim C9, witness: a single fragment holding two complete fences back to
back is delivered as one batch of exactly two blocks in source order, and
the buffer is reset to empty. -/
theorem C9_witness :
    processTokens
        (fun _ => some
          { response := some (String.toList "```p\na\n```\n```b\nc\n```\n") })
        none (some fun _ => (none : Option Nat)) false {} [(['1'], false)] =
      (.ok,
        { res := { response := some (String.toList "```p\na\n```\n```b\nc\n```\n") },
          text := [],
          jsonCalls := [],
          codeCalls := [[⟨['p'], String.toList "\na"⟩,
            ⟨['b'], String.toList "\nc"⟩]] }) :=
  (C9_extractor_policy
    (fun _ => some { response := some (String.toList "```p\na\n```\n```b\nc\n```\n") })
    none (fun _ => (none : Option Nat)) false {} ['1']
    { response := some (String.toList "```p\na\n```\n```b\nc\n```\n") }
    (String.toList "```p\na\n```\n```b\nc\n```\n")
    rfl (fun g hg => absurd hg (by simp)) rfl rfl).trans (by decide)

end GoOllama
